import Mathlib

/-!
Verification of the ilgda-ipc resumable wire codec engine.

The engine (src/serde/{mod,ser,de}.rs) encodes and decodes fixed-width
scalars, byte buffers, strings, homogeneous primitive arrays, optional
values and two-variant outcomes over a non-blocking byte transport.
Every codec is a poll-driven state machine (a StagePoller): each poll
either completes with a result, fails with an io error, or suspends.

The shallow embedding below models:
  - the transport as a script of read events (suspend, transport error,
    or a chunk of up to n bytes), mirroring tokio poll_read semantics;
  - each Rust poll_stage function as a step function from stage state
    and transport state to a poll outcome plus updated states;
  - machine integers as Nat (unsigned) and Int (signed) with explicit
    reduction modulo 256^w at the byte boundary; the platform is the
    64-bit little-endian one the spec's examples fix (8-byte usize,
    native order = little endian);
  - float values by their IEEE-754 bit pattern: the source transfers
    floats exclusively through to_bits / from_bits over the equal-width
    unsigned codec, so the bit pattern is the whole wire content.
-/

/-- The error taxonomy of the engine (spec section 7): transport errors
from the byte capability (tagged with an opaque code), unexpected end of
stream, invalid data (UTF-8 / discriminator), and write-zero. -/
inductive IOError : Type
  | unexpectedEof
  | invalidData
  | writeZero
  | transport (code : Nat)
deriving DecidableEq, Repr

/-- Outcome of polling a stage once: completed with a value, failed with
an io error, or suspended (Poll::Pending). -/
inductive PollOut (α : Type) : Type
  | pending
  | ok (a : α)
  | err (e : IOError)
deriving DecidableEq, Repr

/-- Map a function over the value of a completed poll outcome. -/
def mapOut {α β : Type} (f : α → β) : PollOut α → PollOut β
  | .pending => .pending
  | .ok a => .ok (f a)
  | .err e => .err e

/-- One scheduled behavior of the read half of the transport for one
poll_read call: suspend, fail with a transport error, or hand over up to
n bytes of the incoming stream (tokio poll_read may fill the buffer only
partially; a delivery of zero bytes signals end of stream). -/
inductive RdEvent : Type
  | pending
  | error (code : Nat)
  | give (n : Nat)
deriving DecidableEq, Repr

/-- One scheduled behavior of the write half for one poll_write call:
suspend, fail with a transport error, or accept up to n bytes. An empty
event script stands for an always-ready writer that accepts everything. -/
inductive WrEvent : Type
  | pending
  | error (code : Nat)
  | accept (n : Nat)
deriving DecidableEq, Repr

/-- An event is benign when it is a suspension or a delivery of at least
one byte: no transport error and no artificial zero-byte delivery. -/
def goodEv : RdEvent → Bool
  | .pending => true
  | .give (_ + 1) => true
  | _ => false

/-- All events of a read schedule are benign. -/
def goodEvs (evs : List RdEvent) : Bool := evs.all goodEv

/-- Number of byte-delivering events in a read schedule. -/
def countGives : List RdEvent → Nat
  | [] => 0
  | .give _ :: es => countGives es + 1
  | _ :: es => countGives es

/-- Value of a little-endian byte string, as read by from_ne_bytes on
the little-endian platform fixed by the spec. -/
def leToNat : List Nat → Nat
  | [] => 0
  | b :: bs => b + 256 * leToNat bs

/-- The w little-endian bytes of n, as produced by to_ne_bytes on the
little-endian platform fixed by the spec. -/
def natToLe : Nat → Nat → List Nat
  | 0, _ => []
  | w + 1, n => n % 256 :: natToLe w (n / 256)

/-- Width of a platform word (usize / isize), 8 bytes per the spec. -/
def USIZE_BYTES : Nat := 8

/-! ## Primitive deserializers

The staged multi-byte deserializer (macro deserializer! in src/serde/de.rs,
poll_stage at lines 104-128) keeps a fixed buffer of the scalar width and a
filled-count cursor, and loops: while the cursor is short of the width it
issues one poll_read for the missing tail, propagating a transport error,
reporting a zero-byte read as UnexpectedEof, suspending on Pending, and
otherwise advancing the cursor; once full it decodes with from_ne_bytes.
The same fill-to-a-count loop is the payload phase of
DeserializeBytesStage (lines 301-313) and
DeserializePrimitiveSliceStage (lines 356-370) of src/serde/de.rs, so it
is embedded once, parameterized by the byte count w. The accumulated
bytes list buf stands for the prefix of the staged buffer (respectively
of the uninit payload storage) that has been filled so far. -/
def fillPoll (w : Nat) :
    List Nat → List RdEvent → List Nat →
      PollOut (List Nat) × List Nat × List RdEvent × List Nat
  | buf, evs, d =>
    if w ≤ buf.length then (.ok buf, buf, evs, d)
    else
      match evs with
      | [] => (.err .unexpectedEof, buf, [], d)
      | .pending :: es => (.pending, buf, es, d)
      | .error c :: es => (.err (.transport c), buf, es, d)
      | .give n :: es =>
        let k := min (min n (w - buf.length)) d.length
        if k = 0 then (.err .unexpectedEof, buf, es, d)
        else fillPoll w (buf ++ d.take k) es (d.drop k)
  termination_by _ evs _ => evs.length

/-- Unsigned multi-byte deserializer (deserializer! of src/serde/de.rs):
fill exactly w bytes then interpret them with from_ne_bytes. -/
def deserPoll (w : Nat) (buf : List Nat) (evs : List RdEvent) (d : List Nat) :
    PollOut Nat × List Nat × List RdEvent × List Nat :=
  match fillPoll w buf evs d with
  | (out, buf', evs', d') => (mapOut leToNat out, buf', evs', d')

/-- Two's-complement reading of a w-byte unsigned value, as done by
from_ne_bytes at a signed integer type. -/
def toSignedVal (w u : Nat) : Int :=
  if u < 2 ^ (8 * w - 1) then (u : Int) else (u : Int) - 2 ^ (8 * w)

/-- Signed multi-byte deserializer: the deserializer! machine instantiated
at a signed type; identical byte staging, two's-complement reading. -/
def deserPollS (w : Nat) (buf : List Nat) (evs : List RdEvent) (d : List Nat) :
    PollOut Int × List Nat × List RdEvent × List Nat :=
  match fillPoll w buf evs d with
  | (out, buf', evs', d') => (mapOut (fun bs => toSignedVal w (leToNat bs)) out, buf', evs', d')

/-- One-byte deserializer (macro deserializer8 in src/serde/de.rs, lines
158-179): a single poll_read into a one-byte buffer, no staged state;
a transport error propagates, an empty fill is UnexpectedEof, otherwise
the byte is the result. -/
def deser8Poll : List RdEvent → List Nat → PollOut Nat × List RdEvent × List Nat
  | [], d => (.err .unexpectedEof, [], d)
  | .pending :: es, d => (.pending, es, d)
  | .error c :: es, d => (.err (.transport c), es, d)
  | .give n :: es, d =>
    if n = 0 then (.err .unexpectedEof, es, d)
    else
      match d with
      | [] => (.err .unexpectedEof, es, [])
      | b :: rest => (.ok b, es, rest)

/-- Float32 deserializer (floating_deserializer! in src/serde/de.rs,
lines 207-222): delegates to the u32 machine and reinterprets the bits
with f32::from_bits. A float value is modeled by its IEEE-754 bit
pattern, so from_bits is the identity on the pattern and the machine is
the 4-byte unsigned one. -/
def deserF32Poll : List Nat → List RdEvent → List Nat →
    PollOut Nat × List Nat × List RdEvent × List Nat := deserPoll 4

/-- Float64 deserializer: as deserF32Poll, over the u64 machine. -/
def deserF64Poll : List Nat → List RdEvent → List Nat →
    PollOut Nat × List Nat × List RdEvent × List Nat := deserPoll 8

/-! ## Primitive serializers -/

/-- The staged multi-byte serializer (macro serializer! in src/serde/ser.rs,
poll_stage at lines 48-64) holds the to_ne_bytes image of the value and a
written-count cursor, and loops: while bytes remain it issues one
poll_write of the remaining tail, propagating a transport error, turning
an accepted count of zero into WriteZero, suspending on Pending, else
advancing. The same drain loop is the payload phase of SerializeBytes
(src/serde/ser.rs lines 196-205), so it is embedded once; the state is
the list of bytes still to write. An empty event script is the
always-ready writer: the write is accepted whole. -/
def serPoll : List Nat → List WrEvent → List Nat →
    PollOut Unit × List Nat × List WrEvent × List Nat
  | [], evs, wr => (.ok (), [], evs, wr)
  | rem, [], wr => (.ok (), [], [], wr ++ rem)
  | rem, .pending :: es, wr => (.pending, rem, es, wr)
  | rem, .error c :: es, wr => (.err (.transport c), rem, es, wr)
  | rem, .accept n :: es, wr =>
    let k := min n rem.length
    if k = 0 then (.err .writeZero, rem, es, wr)
    else serPoll (rem.drop k) es (wr ++ rem.take k)
  termination_by _ evs _ => evs.length

/-- One-byte serializer (macro serializer8 in src/serde/ser.rs, lines
95-111): a single poll_write of the one-byte image; an accepted count of
zero is WriteZero, one byte accepted completes. -/
def ser8Poll (b : Nat) : List WrEvent → List Nat →
    PollOut Unit × List WrEvent × List Nat
  | [], wr => (.ok (), [], wr ++ [b])
  | .pending :: es, wr => (.pending, es, wr)
  | .error c :: es, wr => (.err (.transport c), es, wr)
  | .accept n :: es, wr =>
    if n = 0 then (.err .writeZero, es, wr)
    else (.ok (), es, wr ++ [b])

/-- The w-byte to_ne_bytes image of a signed value: the little-endian
bytes of its two's-complement pattern modulo 2^(8w). -/
def sToBytes (w : Nat) (v : Int) : List Nat :=
  natToLe w (v % ((2 : Int) ^ (8 * w))).toNat

/-! ## The memoizing stage -/

/-- The memoizing stage wrapper (enum Stage in src/serde/mod.rs lines
36-39): pending holds the sub-operation state, completed holds its cached
result. -/
inductive Stage (σ τ : Type) : Type
  | pending (s : σ)
  | completed (t : τ)
deriving DecidableEq, Repr

/-- One resolution step of a memoizing stage (macro resolve_stage in
src/serde/mod.rs lines 48-66, and the identical ready_up_data of
src/serde/de.rs lines 249-265): a completed stage yields its cached value
untouched, without polling the inner operation or the transport; a
pending stage polls the inner operation once, caching its value on
completion and otherwise keeping the (updated) pending state. -/
def resolveStage {σ τ : Type}
    (f : σ → List RdEvent → List Nat → PollOut τ × σ × List RdEvent × List Nat)
    (st : Stage σ τ) (evs : List RdEvent) (d : List Nat) :
    PollOut τ × Stage σ τ × List RdEvent × List Nat :=
  match st with
  | .completed t => (.ok t, .completed t, evs, d)
  | .pending s =>
    match f s evs d with
    | (.ok t, _, evs', d') => (.ok t, .completed t, evs', d')
    | (.err e, s', evs', d') => (.err e, .pending s', evs', d')
    | (.pending, s', evs', d') => (.pending, .pending s', evs', d')

/-! ## Length-framed decoders: bytes, strings, primitive slices -/

/-- Common state of the length-framed decoders (DeserializeBytesStage,
src/serde/de.rs lines 267-272, and DeserializePrimitiveSliceStage, lines
322-327): the memoized usize length stage (its pending state is the
partially filled 8-byte staging buffer) and the payload bytes filled so
far (the initialized prefix of the uninit storage, tracked in the source
by the filled counter). -/
structure FramedSt : Type where
  lenSt : Stage (List Nat) Nat
  acc : List Nat
deriving DecidableEq, Repr

/-- Fresh framed-decoder state (DeserializeBytesStage::new /
DeserializePrimitiveSliceStage::new / DeserializeStringStage::new). -/
def framedInit : FramedSt := ⟨.pending [], []⟩

/-- One poll of a length-framed decoder, parameterized by the byte count
tgt L of the payload for a decoded length prefix L (tgt = id for bytes
and strings, tgt L = L * size_of T for primitive slices). Embeds
poll_stage of DeserializeBytesStage (src/serde/de.rs lines 294-319) and
of DeserializePrimitiveSliceStage (lines 349-376): first ready_up_data
resolves the length stage (propagating its pending and error outcomes),
then the fill loop reads payload bytes until tgt L of them are staged,
and the payload is returned. -/
def framedPoll (tgt : Nat → Nat) (st : FramedSt) (evs : List RdEvent) (d : List Nat) :
    PollOut (List Nat) × FramedSt × List RdEvent × List Nat :=
  match st.lenSt with
  | .completed L =>
    match fillPoll (tgt L) st.acc evs d with
    | (out, acc', evs', d') => (out, ⟨.completed L, acc'⟩, evs', d')
  | .pending ls =>
    match fillPoll USIZE_BYTES ls evs d with
    | (.ok lb, _, evs', d') =>
      match fillPoll (tgt (leToNat lb)) st.acc evs' d' with
      | (out, acc', evs'', d'') => (out, ⟨.completed (leToNat lb), acc'⟩, evs'', d'')
    | (.err e, ls', evs', d') => (.err e, ⟨.pending ls', st.acc⟩, evs', d')
    | (.pending, ls', evs', d') => (.pending, ⟨.pending ls', st.acc⟩, evs', d')

/-- Byte-buffer decoder (DeserializeBytesStage): the length prefix is the
byte count of the payload. -/
def bytesPoll : FramedSt → List RdEvent → List Nat →
    PollOut (List Nat) × FramedSt × List RdEvent × List Nat :=
  framedPoll (fun L => L)

/-- A UTF-8 continuation byte: high bits 10. -/
def contByte (b : Nat) : Bool := 128 ≤ b && b ≤ 191

/-- Standard UTF-8 validity of a byte string (what
simdutf8::basic::string::from_utf8 accepts in
DeserializeStringStage::poll_stage): ASCII, two- to four-byte sequences,
no overlong forms, no surrogates, no code points beyond U+10FFFF. -/
def validUtf8 : List Nat → Bool
  | [] => true
  | b :: r =>
    if b ≤ 127 then validUtf8 r
    else if 194 ≤ b && b ≤ 223 then
      match r with
      | c1 :: r2 => contByte c1 && validUtf8 r2
      | [] => false
    else if b = 224 then
      match r with
      | c1 :: c2 :: r2 => (160 ≤ c1 && c1 ≤ 191) && contByte c2 && validUtf8 r2
      | _ => false
    else if (225 ≤ b && b ≤ 236) || b = 238 || b = 239 then
      match r with
      | c1 :: c2 :: r2 => contByte c1 && contByte c2 && validUtf8 r2
      | _ => false
    else if b = 237 then
      match r with
      | c1 :: c2 :: r2 => (128 ≤ c1 && c1 ≤ 159) && contByte c2 && validUtf8 r2
      | _ => false
    else if b = 240 then
      match r with
      | c1 :: c2 :: c3 :: r2 =>
        (144 ≤ c1 && c1 ≤ 191) && contByte c2 && contByte c3 && validUtf8 r2
      | _ => false
    else if 241 ≤ b && b ≤ 243 then
      match r with
      | c1 :: c2 :: c3 :: r2 => contByte c1 && contByte c2 && contByte c3 && validUtf8 r2
      | _ => false
    else if b = 244 then
      match r with
      | c1 :: c2 :: c3 :: r2 =>
        (128 ≤ c1 && c1 ≤ 143) && contByte c2 && contByte c3 && validUtf8 r2
      | _ => false
    else false

/-- String decoder (DeserializeStringStage::poll_stage, src/serde/de.rs
lines 415-426): polls the inner byte-buffer decoder; on completion the
fully buffered payload is validated as UTF-8, and an invalid payload
fails with InvalidData. The result is the validated byte string. -/
def strPoll (st : FramedSt) (evs : List RdEvent) (d : List Nat) :
    PollOut (List Nat) × FramedSt × List RdEvent × List Nat :=
  match bytesPoll st evs d with
  | (.ok bs, st', evs', d') =>
    (if validUtf8 bs then .ok bs else .err .invalidData, st', evs', d')
  | r => r

/-- Raw memory image of a primitive slice on the little-endian platform
(bytemuck::must_cast_slice in SerializePrimitiveSlice::new): the
concatenation of the size-byte images of the elements. -/
def sliceBytes (size : Nat) (elems : List Nat) : List Nat :=
  (elems.map (natToLe size)).flatten

/-- Reading L elements of width size back out of their raw memory image
(the final reinterpretation assume_vec_innit performs on the filled
payload storage of DeserializePrimitiveSliceStage). -/
def decodeElems (size : Nat) : Nat → List Nat → List Nat
  | 0, _ => []
  | L + 1, bs => leToNat (bs.take size) :: decodeElems size L (bs.drop size)

/-- Primitive-slice decoder (DeserializePrimitiveSliceStage::poll_stage,
src/serde/de.rs lines 349-376): the length prefix is the element count L,
the payload is L * size bytes filled through the byte reinterpretation of
the element storage, and the filled storage is returned as L elements. -/
def deSlicePoll (size : Nat) (st : FramedSt) (evs : List RdEvent) (d : List Nat) :
    PollOut (List Nat) × FramedSt × List RdEvent × List Nat :=
  match st.lenSt with
  | .completed L =>
    match fillPoll (L * size) st.acc evs d with
    | (out, acc', evs', d') => (mapOut (decodeElems size L) out, ⟨.completed L, acc'⟩, evs', d')
  | .pending ls =>
    match fillPoll USIZE_BYTES ls evs d with
    | (.ok lb, _, evs', d') =>
      match fillPoll (leToNat lb * size) st.acc evs' d' with
      | (out, acc', evs'', d'') =>
        (mapOut (decodeElems size (leToNat lb)) out, ⟨.completed (leToNat lb), acc'⟩, evs'', d'')
    | (.err e, ls', evs', d') => (.err e, ⟨.pending ls', st.acc⟩, evs', d')
    | (.pending, ls', evs', d') => (.pending, ⟨.pending ls', st.acc⟩, evs', d')

/-! ## Length-framed encoders -/

/-- State of SerializeBytes (src/serde/ser.rs lines 169-173): the
memoized usize length stage (pending state: the bytes of the prefix still
unwritten) and the payload bytes still to write. -/
structure SerBytesSt : Type where
  lenSt : Stage (List Nat) Unit
  buf : List Nat
deriving DecidableEq, Repr

/-- SerializeBytes::new (src/serde/ser.rs lines 176-183): stage the
buffer length as the usize prefix, keep the payload. -/
def serBytesNew (payload : List Nat) : SerBytesSt :=
  ⟨.pending (natToLe USIZE_BYTES payload.length), payload⟩

/-- SerializePrimitiveSlice::new (src/serde/ser.rs lines 226-237): the
length prefix is the element count, the payload is the raw byte
reinterpretation of the slice. -/
def serPrimSliceNew (size : Nat) (elems : List Nat) : SerBytesSt :=
  ⟨.pending (natToLe USIZE_BYTES elems.length), sliceBytes size elems⟩

/-- One poll of SerializeBytes (poll_stage, src/serde/ser.rs lines
189-208, shared by SerializePrimitiveSlice lines 242-245): resolve_stage
drives the length prefix (propagating pending and errors), then the drain
loop writes the payload until empty. -/
def serBytesPoll (st : SerBytesSt) (evs : List WrEvent) (wr : List Nat) :
    PollOut Unit × SerBytesSt × List WrEvent × List Nat :=
  match st.lenSt with
  | .completed u =>
    match serPoll st.buf evs wr with
    | (out, rem', evs', wr') => (out, ⟨.completed u, rem'⟩, evs', wr')
  | .pending ls =>
    match serPoll ls evs wr with
    | (.ok _, _, evs', wr') =>
      match serPoll st.buf evs' wr' with
      | (out, rem', evs'', wr'') => (out, ⟨.completed (), rem'⟩, evs'', wr'')
    | (.err e, ls', evs', wr') => (.err e, ⟨.pending ls', st.buf⟩, evs', wr')
    | (.pending, ls', evs', wr') => (.pending, ⟨.pending ls', st.buf⟩, evs', wr')

/-! ## Optional values and two-variant outcomes (decode) -/

/-- A decoder for an inner wire type: its stage state type, the fresh
stage (T::read_from_stage), and its poll function. Stands for the
AsyncDe contract of src/serde/mod.rs. -/
structure DeCodec (α : Type) : Type 1 where
  St : Type
  init : St
  poll : St → List RdEvent → List Nat → PollOut α × St × List RdEvent × List Nat

/-- State of DeserializeOption (src/serde/de.rs lines 430-434):
awaiting the discriminator byte (the one-byte stage is stateless), or
delegating to the inner payload stage. -/
inductive OptSt (σ : Type) : Type
  | disc
  | payload (s : σ)
deriving DecidableEq, Repr

/-- DeserializeOption::poll_stage (src/serde/de.rs lines 453-495): in the
discriminator state poll the one-byte stage; discriminator 1 transitions
to the payload state with a fresh inner stage and polls it at once,
discriminator 0 completes with an absent value, anything else fails with
InvalidData; in the payload state delegate to the inner stage, wrapping
its value as present. -/
def optPoll {α : Type} (c : DeCodec α) :
    OptSt c.St → List RdEvent → List Nat →
      PollOut (Option α) × OptSt c.St × List RdEvent × List Nat
  | .disc, evs, d =>
    match deser8Poll evs d with
    | (.ok b, evs', d') =>
      if b = 1 then
        match c.poll c.init evs' d' with
        | (out, s', evs'', d'') => (mapOut some out, .payload s', evs'', d'')
      else if b = 0 then (.ok none, .disc, evs', d')
      else (.err .invalidData, .disc, evs', d')
    | (.err e, evs', d') => (.err e, .disc, evs', d')
    | (.pending, evs', d') => (.pending, .disc, evs', d')
  | .payload s, evs, d =>
    match c.poll s evs d with
    | (out, s', evs', d') => (mapOut some out, .payload s', evs', d')

/-- State of DeserializeResult (src/serde/de.rs lines 498-503): awaiting
the discriminator, or delegating to the success (T) or failure (E)
payload stage. -/
inductive ResSt (σT σE : Type) : Type
  | disc
  | pendT (s : σT)
  | pendE (s : σE)
deriving DecidableEq, Repr

/-- DeserializeResult::poll_stage (src/serde/de.rs lines 522-581):
discriminator 1 transitions to the success stage and polls it at once,
discriminator 0 transitions to the failure stage and polls it at once,
anything else fails with InvalidData; payload states delegate, wrapping
as success (Sum.inl) respectively failure (Sum.inr). -/
def resPoll {α β : Type} (cT : DeCodec α) (cE : DeCodec β) :
    ResSt cT.St cE.St → List RdEvent → List Nat →
      PollOut (Sum α β) × ResSt cT.St cE.St × List RdEvent × List Nat
  | .disc, evs, d =>
    match deser8Poll evs d with
    | (.ok b, evs', d') =>
      if b = 1 then
        match cT.poll cT.init evs' d' with
        | (out, s', evs'', d'') => (mapOut Sum.inl out, .pendT s', evs'', d'')
      else if b = 0 then
        match cE.poll cE.init evs' d' with
        | (out, s', evs'', d'') => (mapOut Sum.inr out, .pendE s', evs'', d'')
      else (.err .invalidData, .disc, evs', d')
    | (.err e, evs', d') => (.err e, .disc, evs', d')
    | (.pending, evs', d') => (.pending, .disc, evs', d')
  | .pendT s, evs, d =>
    match cT.poll s evs d with
    | (out, s', evs', d') => (mapOut Sum.inl out, .pendT s', evs', d')
  | .pendE s, evs, d =>
    match cE.poll s evs d with
    | (out, s', evs', d') => (mapOut Sum.inr out, .pendE s', evs', d')

/-! ## Duplex stream wrapper factories -/

/-- A supervised child process as the factories see it: its standard
output and standard input pipe handles, either of which may already be
unavailable (taken or never captured). Handles are opaque tags. -/
structure Child : Type where
  stdout : Option Nat
  stdin : Option Nat
deriving DecidableEq, Repr

/-- The duplex stream wrapper (IpcStream of src/lib.rs lines 27-30): a
buffered read half and a buffered write half, each over an opaque byte
endpoint. -/
structure IpcStream : Type where
  read_stream : Nat
  write_stream : Nat
deriving DecidableEq, Repr

/-- IpcStream::parent_stream (src/lib.rs lines 157-165): attach to the
current process's own standard streams. In the source this is infallible
(tokio stdin and stdout handles always exist), so it produces a stream
unconditionally; the tags 0 and 1 stand for the standard stream
descriptors. -/
def parent_stream : IpcStream := ⟨0, 1⟩

/-- IpcStream::connect_to_child (src/lib.rs lines 166-174): take the
child's stdout then its stdin; if either handle is unavailable the
factory produces nothing, otherwise the stream wraps the two pipes. -/
def connect_to_child (c : Child) : Option IpcStream :=
  match c.stdout with
  | none => none
  | some o =>
    match c.stdin with
    | none => none
    | some i => some ⟨o, i⟩

/-! ## Driving an operation across scheduling turns -/

/-- Poll a stage repeatedly (the cooperative scheduler of spec section
5): keep polling while the stage suspends, stop as soon as it completes
or fails; fuel bounds the number of polls and a run that exhausts fuel is
still suspended. -/
def drivePoll {σ α : Type}
    (step : σ → List RdEvent → List Nat → PollOut α × σ × List RdEvent × List Nat) :
    Nat → σ → List RdEvent → List Nat → PollOut α × σ × List RdEvent × List Nat
  | 0, st, evs, d => (.pending, st, evs, d)
  | fuel + 1, st, evs, d =>
    match step st evs d with
    | (.pending, st', evs', d') => drivePoll step fuel st' evs' d'
    | r => r

/-- Length-prefix value cached in a framed decoder state, once known. -/
def stLen : FramedSt → Nat
  | ⟨.completed L, _⟩ => L
  | ⟨.pending _, _⟩ => 0

/-- The u8 wire codec packaged as a DeCodec (the AsyncDe impl for u8 of
src/serde/mod.rs, primitive_serde!): its stage, DeserializeU8Stage, is
stateless. Used to instantiate the compound codecs at a concrete inner
type. -/
def u8Codec : DeCodec Nat where
  St := Unit
  init := ()
  poll := fun _ evs d =>
    ((deser8Poll evs d).1, (), (deser8Poll evs d).2.1, (deser8Poll evs d).2.2)

/-! # Theorems -/

theorem natToLe_length (w n : Nat) : (natToLe w n).length = w := by
  induction w generalizing n with
  | zero => rfl
  | succ w ih => simp [natToLe, ih]

theorem leToNat_natToLe (w n : Nat) (h : n < 256 ^ w) :
    leToNat (natToLe w n) = n := by
  induction w generalizing n with
  | zero => simp [natToLe, leToNat]; omega
  | succ w ih =>
    have hdiv : n / 256 < 256 ^ w := by
      rw [Nat.div_lt_iff_lt_mul (by norm_num)]
      calc n < 256 ^ (w + 1) := h
        _ = 256 ^ w * 256 := by ring
    simp [natToLe, leToNat, ih (n / 256) hdiv]
    omega

theorem pow256_eq (w : Nat) : (256 : Nat) ^ w = 2 ^ (8 * w) := by
  rw [show (256 : Nat) = 2 ^ 8 from rfl, ← pow_mul]

/-! ## Single-step behavior of the fill loop -/

theorem fillPoll_done {w : Nat} {buf : List Nat} (evs : List RdEvent) (d : List Nat)
    (h : w ≤ buf.length) : fillPoll w buf evs d = (.ok buf, buf, evs, d) := by
  rw [fillPoll.eq_def]
  dsimp only
  rw [if_pos h]

theorem fillPoll_nil {w : Nat} {buf : List Nat} (d : List Nat)
    (h : buf.length < w) : fillPoll w buf [] d = (.err .unexpectedEof, buf, [], d) := by
  rw [fillPoll.eq_def]
  dsimp only
  rw [if_neg (Nat.not_le.mpr h)]

theorem fillPoll_pending {w : Nat} {buf : List Nat} (es : List RdEvent) (d : List Nat)
    (h : buf.length < w) :
    fillPoll w buf (.pending :: es) d = (.pending, buf, es, d) := by
  rw [fillPoll.eq_def]
  dsimp only
  rw [if_neg (Nat.not_le.mpr h)]

theorem fillPoll_error {w : Nat} {buf : List Nat} (c : Nat) (es : List RdEvent) (d : List Nat)
    (h : buf.length < w) :
    fillPoll w buf (.error c :: es) d = (.err (.transport c), buf, es, d) := by
  rw [fillPoll.eq_def]
  dsimp only
  rw [if_neg (Nat.not_le.mpr h)]

theorem fillPoll_give_zero {w : Nat} {buf : List Nat} {n : Nat} {d : List Nat}
    (es : List RdEvent) (h : buf.length < w)
    (hk : min (min n (w - buf.length)) d.length = 0) :
    fillPoll w buf (.give n :: es) d = (.err .unexpectedEof, buf, es, d) := by
  rw [fillPoll.eq_def]
  dsimp only
  rw [if_neg (Nat.not_le.mpr h), if_pos hk]

theorem fillPoll_give_step {w : Nat} {buf : List Nat} {n : Nat} {d : List Nat}
    (es : List RdEvent) (h : buf.length < w)
    (hk : min (min n (w - buf.length)) d.length ≠ 0) :
    fillPoll w buf (.give n :: es) d =
      fillPoll w (buf ++ d.take (min (min n (w - buf.length)) d.length)) es
        (d.drop (min (min n (w - buf.length)) d.length)) := by
  rw [fillPoll.eq_def]
  dsimp only
  rw [if_neg (Nat.not_le.mpr h), if_neg hk]

/-! ## Driving lemmas -/

theorem drivePoll_congr {σ α : Type}
    (step : σ → List RdEvent → List Nat → PollOut α × σ × List RdEvent × List Nat)
    {st st' : σ} {evs evs' : List RdEvent} {d d' : List Nat}
    (h : step st evs d = step st' evs' d') (fuel : Nat) :
    drivePoll step (fuel + 1) st evs d = drivePoll step (fuel + 1) st' evs' d' := by
  simp only [drivePoll]
  rw [h]

theorem drivePoll_ready {σ α : Type}
    (step : σ → List RdEvent → List Nat → PollOut α × σ × List RdEvent × List Nat)
    {st : σ} {evs : List RdEvent} {d : List Nat}
    {out : PollOut α} {st' : σ} {evs' : List RdEvent} {d' : List Nat}
    (h : step st evs d = (out, st', evs', d')) (hout : out ≠ .pending) (fuel : Nat) :
    drivePoll step (fuel + 1) st evs d = (out, st', evs', d') := by
  simp only [drivePoll]
  rw [h]
  cases out with
  | pending => exact absurd rfl hout
  | ok a => rfl
  | err e => rfl

theorem drivePoll_pending_step {σ α : Type}
    (step : σ → List RdEvent → List Nat → PollOut α × σ × List RdEvent × List Nat)
    {st : σ} {evs : List RdEvent} {d : List Nat}
    {st' : σ} {evs' : List RdEvent} {d' : List Nat}
    (h : step st evs d = (.pending, st', evs', d')) (fuel : Nat) :
    drivePoll step (fuel + 1) st evs d = drivePoll step fuel st' evs' d' := by
  simp only [drivePoll]
  rw [h]

theorem goodEvs_cons {e : RdEvent} {es : List RdEvent} (h : goodEvs (e :: es) = true) :
    goodEv e = true ∧ goodEvs es = true := by
  simpa [goodEvs] using h

theorem goodEv_give_pos {n : Nat} (h : goodEv (.give n) = true) : 0 < n := by
  cases n with
  | zero => simp [goodEv] at h
  | succ m => omega

/-- Driving the fill loop under any benign schedule that promises at
least the missing number of deliveries completes with exactly the next
w - buf.length bytes of the stream appended, consuming no byte twice. -/
theorem fill_drive (w : Nat) :
    ∀ (evs : List RdEvent) (buf d : List Nat) (fuel : Nat),
      goodEvs evs = true →
      buf.length ≤ w →
      w ≤ buf.length + d.length →
      w ≤ buf.length + countGives evs →
      evs.length < fuel →
      ∃ evs', drivePoll (fillPoll w) fuel buf evs d =
        (.ok (buf ++ d.take (w - buf.length)),
         buf ++ d.take (w - buf.length), evs', d.drop (w - buf.length)) := by
  intro evs
  induction evs with
  | nil =>
    intro buf d fuel hg hbw hd hc hf
    have hw : w = buf.length := by
      simp [countGives] at hc
      omega
    obtain ⟨f, rfl⟩ : ∃ f, fuel = f + 1 := ⟨fuel - 1, by omega⟩
    refine ⟨[], ?_⟩
    rw [drivePoll_ready (fillPoll w) (fillPoll_done [] d (le_of_eq hw)) (by simp) f]
    simp [hw]
  | cons e es ih =>
    intro buf d fuel hg hbw hd hc hf
    obtain ⟨f, rfl⟩ : ∃ f, fuel = f + 1 := ⟨fuel - 1, by omega⟩
    obtain ⟨hge, hges⟩ := goodEvs_cons hg
    rcases Nat.lt_or_ge buf.length w with hlt | hfull
    · cases e with
      | pending =>
        rw [drivePoll_pending_step (fillPoll w) (fillPoll_pending es d hlt) f]
        have hc' : w ≤ buf.length + countGives es := by
          simpa [countGives] using hc
        exact ih buf d f hges hbw hd hc' (by simp at hf; omega)
      | error c =>
        simp [goodEv] at hge
      | give n =>
        have hn : 0 < n := goodEv_give_pos hge
        have hdpos : 0 < d.length := by omega
        obtain ⟨k, hkdef⟩ : ∃ k, min (min n (w - buf.length)) d.length = k := ⟨_, rfl⟩
        have hkpos : 0 < k := by
          rw [← hkdef]
          exact lt_min (lt_min hn (by omega)) hdpos
        have hkle : k ≤ w - buf.length := by
          rw [← hkdef]
          exact le_trans (min_le_left _ _) (min_le_right _ _)
        have hkled : k ≤ d.length := by
          rw [← hkdef]
          exact min_le_right _ _
        have hk0 : min (min n (w - buf.length)) d.length ≠ 0 := by omega
        rw [drivePoll_congr (fillPoll w) (fillPoll_give_step es hlt hk0) f, hkdef]
        have hlen' : (buf ++ d.take k).length = buf.length + k := by
          simp [List.length_take]
          omega
        have hc' : w ≤ (buf ++ d.take k).length + countGives es := by
          rw [hlen']
          simp [countGives] at hc
          omega
        obtain ⟨evs', heq⟩ := ih (buf ++ d.take k) (d.drop k) (f + 1) hges
          (by rw [hlen']; omega)
          (by rw [hlen']; simp [List.length_drop]; omega)
          hc'
          (by simp at hf; omega)
        refine ⟨evs', ?_⟩
        rw [hlen'] at heq
        have harith : k + (w - (buf.length + k)) = w - buf.length := by omega
        have htake : d.take k ++ (d.drop k).take (w - (buf.length + k)) =
            d.take (w - buf.length) := by
          rw [← harith, List.take_add]
        have hdrop : (d.drop k).drop (w - (buf.length + k)) = d.drop (w - buf.length) := by
          rw [List.drop_drop]
          rw [harith]
        rw [List.append_assoc, htake, hdrop] at heq
        exact heq
    · refine ⟨e :: es, ?_⟩
      rw [drivePoll_ready (fillPoll w) (fillPoll_done (e :: es) d hfull) (by simp) f]
      have : w - buf.length = 0 := by omega
      simp [this]

/-- A single delivery of at least the missing byte count completes the
fill loop in one poll. -/
theorem fillPoll_one_give (w : Nat) (buf d : List Nat) (n : Nat)
    (es : List RdEvent)
    (hlt : buf.length < w) (hn : w - buf.length ≤ n) (hd : w ≤ buf.length + d.length) :
    fillPoll w buf (.give n :: es) d =
      (.ok (buf ++ d.take (w - buf.length)), buf ++ d.take (w - buf.length), es,
        d.drop (w - buf.length)) := by
  have hkval : min (min n (w - buf.length)) d.length = w - buf.length := by
    rw [min_comm n (w - buf.length), min_assoc]
    exact min_eq_left (le_min hn (by omega))
  rw [fillPoll_give_step es hlt (by omega), hkval]
  apply fillPoll_done
  simp [List.length_take]
  omega

/-- Post-composing a stage with a result transformation that preserves
suspension commutes with driving. -/
theorem drivePoll_post {σ α β : Type}
    (f : σ → List RdEvent → List Nat → PollOut α × σ × List RdEvent × List Nat)
    (post : σ → PollOut α → PollOut β)
    (f2 : σ → List RdEvent → List Nat → PollOut β × σ × List RdEvent × List Nat)
    (hf : ∀ st evs d, f2 st evs d = (post (f st evs d).2.1 (f st evs d).1, (f st evs d).2))
    (hpend : ∀ s o, post s o = .pending ↔ o = .pending) :
    ∀ (fuel : Nat) (st : σ) (evs : List RdEvent) (d : List Nat),
      drivePoll f2 fuel st evs d =
        (post (drivePoll f fuel st evs d).2.1 (drivePoll f fuel st evs d).1,
         (drivePoll f fuel st evs d).2) := by
  intro fuel
  induction fuel with
  | zero =>
    intro st evs d
    simp [drivePoll, (hpend st .pending).mpr rfl]
  | succ fl ih =>
    intro st evs d
    rcases hr : f st evs d with ⟨out, st', evs', d'⟩
    have hf2 : f2 st evs d = (post st' out, st', evs', d') := by
      rw [hf, hr]
    cases out with
    | pending =>
      rw [drivePoll_pending_step f2 (by rw [hf2, (hpend st' .pending).mpr rfl]) fl]
      rw [drivePoll_pending_step f hr fl]
      exact ih st' evs' d'
    | ok a =>
      have hnp : post st' (.ok a) ≠ .pending := by
        intro hcon
        exact PollOut.noConfusion ((hpend st' (.ok a)).mp hcon)
      rw [drivePoll_ready f2 hf2 hnp fl]
      rw [drivePoll_ready f hr (by intro hcon; exact PollOut.noConfusion hcon) fl]
    | err e =>
      have hnp : post st' (.err e) ≠ .pending := by
        intro hcon
        exact PollOut.noConfusion ((hpend st' (.err e)).mp hcon)
      rw [drivePoll_ready f2 hf2 hnp fl]
      rw [drivePoll_ready f hr (by intro hcon; exact PollOut.noConfusion hcon) fl]

/-! ## Length-framed decoder driving -/

theorem framed_pending_full (tgt : Nat → Nat) (ls acc : List Nat)
    (evs : List RdEvent) (d : List Nat) (h8 : USIZE_BYTES ≤ ls.length) :
    framedPoll tgt ⟨.pending ls, acc⟩ evs d =
      framedPoll tgt ⟨.completed (leToNat ls), acc⟩ evs d := by
  simp only [framedPoll]
  rw [fillPoll_done evs d h8]

theorem framed_pending_susp (tgt : Nat → Nat) (ls acc : List Nat)
    (es : List RdEvent) (d : List Nat) (hlt : ls.length < USIZE_BYTES) :
    framedPoll tgt ⟨.pending ls, acc⟩ (.pending :: es) d =
      (.pending, ⟨.pending ls, acc⟩, es, d) := by
  simp only [framedPoll]
  rw [fillPoll_pending es d hlt]

theorem framed_pending_step (tgt : Nat → Nat) (ls acc : List Nat) (n : Nat)
    (es : List RdEvent) (d : List Nat) (hlt : ls.length < USIZE_BYTES)
    (hk : min (min n (USIZE_BYTES - ls.length)) d.length ≠ 0) :
    framedPoll tgt ⟨.pending ls, acc⟩ (.give n :: es) d =
      framedPoll tgt
        ⟨.pending (ls ++ d.take (min (min n (USIZE_BYTES - ls.length)) d.length)), acc⟩
        es (d.drop (min (min n (USIZE_BYTES - ls.length)) d.length)) := by
  simp only [framedPoll]
  rw [fillPoll_give_step es hlt hk]

theorem framed_completed_drive (tgt : Nat → Nat) (L : Nat) :
    ∀ (fuel : Nat) (acc : List Nat) (evs : List RdEvent) (d : List Nat),
      drivePoll (framedPoll tgt) fuel ⟨.completed L, acc⟩ evs d =
        ((drivePoll (fillPoll (tgt L)) fuel acc evs d).1,
         ⟨.completed L, (drivePoll (fillPoll (tgt L)) fuel acc evs d).2.1⟩,
         (drivePoll (fillPoll (tgt L)) fuel acc evs d).2.2) := by
  intro fuel
  induction fuel with
  | zero =>
    intro acc evs d
    simp [drivePoll]
  | succ fl ih =>
    intro acc evs d
    rcases hr : fillPoll (tgt L) acc evs d with ⟨out, acc', evs', d'⟩
    have hstep : framedPoll tgt ⟨.completed L, acc⟩ evs d = (out, ⟨.completed L, acc'⟩, evs', d') := by
      simp only [framedPoll]
      rw [hr]
    cases out with
    | pending =>
      rw [drivePoll_pending_step (framedPoll tgt) hstep fl]
      rw [drivePoll_pending_step (fillPoll (tgt L)) hr fl]
      exact ih acc' evs' d'
    | ok a =>
      rw [drivePoll_ready (framedPoll tgt) hstep (by simp) fl]
      rw [drivePoll_ready (fillPoll (tgt L)) hr (by simp) fl]
    | err e =>
      rw [drivePoll_ready (framedPoll tgt) hstep (by simp) fl]
      rw [drivePoll_ready (fillPoll (tgt L)) hr (by simp) fl]

/-- Driving a framed decoder whose length prefix is already fully staged
reduces to driving the payload fill loop. -/
theorem framed_drive_full (tgt : Nat → Nat) (evs : List RdEvent)
    (ls acc d : List Nat) (L N fuel : Nat)
    (hg : goodEvs evs = true)
    (hls : USIZE_BYTES ≤ ls.length)
    (hL : leToNat ls = L)
    (hN : tgt L = N)
    (hacc : acc.length ≤ N)
    (hd : N - acc.length ≤ d.length)
    (hc : N - acc.length ≤ countGives evs)
    (hf : evs.length < fuel) :
    ∃ evs',
      drivePoll (framedPoll tgt) fuel ⟨.pending ls, acc⟩ evs d =
        (.ok (acc ++ d.take (N - acc.length)),
         ⟨.completed L, acc ++ d.take (N - acc.length)⟩,
         evs', d.drop (N - acc.length)) := by
  obtain ⟨f, rfl⟩ : ∃ f, fuel = f + 1 := ⟨fuel - 1, by omega⟩
  rw [drivePoll_congr (framedPoll tgt) (framed_pending_full tgt ls acc evs d hls) f]
  rw [hL]
  rw [framed_completed_drive tgt L (f + 1) acc evs d]
  obtain ⟨evs', heq⟩ := fill_drive N evs acc d (f + 1) hg hacc (by omega) (by omega) hf
  rw [hN, heq]
  exact ⟨evs', rfl⟩

/-- Driving a framed decoder from scratch under a benign schedule that
promises enough deliveries: the prefix decodes to L, the payload phase
consumes exactly tgt L further bytes, and the raw payload is returned. -/
theorem framed_drive (tgt : Nat → Nat) :
    ∀ (evs : List RdEvent) (ls acc d : List Nat) (L N fuel : Nat),
      goodEvs evs = true →
      ls.length ≤ USIZE_BYTES →
      leToNat (ls ++ d.take (USIZE_BYTES - ls.length)) = L →
      tgt L = N →
      acc.length ≤ N →
      (USIZE_BYTES - ls.length) + (N - acc.length) ≤ d.length →
      (USIZE_BYTES - ls.length) + (N - acc.length) ≤ countGives evs →
      evs.length < fuel →
      ∃ evs',
        drivePoll (framedPoll tgt) fuel ⟨.pending ls, acc⟩ evs d =
          (.ok (acc ++ (d.drop (USIZE_BYTES - ls.length)).take (N - acc.length)),
           ⟨.completed L, acc ++ (d.drop (USIZE_BYTES - ls.length)).take (N - acc.length)⟩,
           evs', d.drop ((USIZE_BYTES - ls.length) + (N - acc.length))) := by
  intro evs
  induction evs with
  | nil =>
    intro ls acc d L N fuel hg h8 hL hN hacc hd hc hf
    have hz : USIZE_BYTES - ls.length = 0 ∧ N - acc.length = 0 := by
      simp [countGives] at hc
      omega
    have hL' : leToNat ls = L := by
      rw [hz.1] at hL
      simpa using hL
    obtain ⟨evs', heq⟩ := framed_drive_full tgt [] ls acc d L N fuel hg (by omega) hL' hN hacc
      (by omega) (by omega) hf
    refine ⟨evs', ?_⟩
    rw [heq, hz.1, hz.2]
    simp [hz.2]
  | cons e es ih =>
    intro ls acc d L N fuel hg h8 hL hN hacc hd hc hf
    obtain ⟨hge, hges⟩ := goodEvs_cons hg
    rcases Nat.lt_or_ge ls.length USIZE_BYTES with hlt | hfull
    · obtain ⟨f, rfl⟩ : ∃ f, fuel = f + 1 := ⟨fuel - 1, by omega⟩
      cases e with
      | pending =>
        rw [drivePoll_pending_step (framedPoll tgt)
          (framed_pending_susp tgt ls acc es d hlt) f]
        have hc' : (USIZE_BYTES - ls.length) + (N - acc.length) ≤ countGives es := by
          simpa [countGives] using hc
        exact ih ls acc d L N f hges h8 hL hN hacc hd hc' (by simp at hf; omega)
      | error c =>
        simp [goodEv] at hge
      | give n =>
        have hn : 0 < n := goodEv_give_pos hge
        have hdpos : 0 < d.length := by omega
        obtain ⟨k, hkdef⟩ : ∃ k, min (min n (USIZE_BYTES - ls.length)) d.length = k := ⟨_, rfl⟩
        have hkpos : 0 < k := by
          rw [← hkdef]
          exact lt_min (lt_min hn (by omega)) hdpos
        have hkle : k ≤ USIZE_BYTES - ls.length := by
          rw [← hkdef]
          exact le_trans (min_le_left _ _) (min_le_right _ _)
        have hkled : k ≤ d.length := by
          rw [← hkdef]
          exact min_le_right _ _
        have hk0 : min (min n (USIZE_BYTES - ls.length)) d.length ≠ 0 := by omega
        rw [drivePoll_congr (framedPoll tgt)
          (framed_pending_step tgt ls acc n es d hlt hk0) f, hkdef]
        have hlen' : (ls ++ d.take k).length = ls.length + k := by
          simp [List.length_take]
          omega
        have harith : k + (USIZE_BYTES - (ls.length + k)) = USIZE_BYTES - ls.length := by
          omega
        have hL' : leToNat ((ls ++ d.take k) ++
            (d.drop k).take (USIZE_BYTES - (ls.length + k))) = L := by
          rw [List.append_assoc, ← List.take_add, harith]
          exact hL
        obtain ⟨evs', heq⟩ := ih (ls ++ d.take k) acc (d.drop k) L N (f + 1) hges
          (by rw [hlen']; omega)
          (by rw [hlen']; exact hL')
          hN hacc
          (by rw [hlen']; simp [List.length_drop]; omega)
          (by rw [hlen']; simp [countGives] at hc; omega)
          (by simp at hf; omega)
        refine ⟨evs', ?_⟩
        rw [hlen'] at heq
        have hdrop1 : (d.drop k).drop (USIZE_BYTES - (ls.length + k)) =
            d.drop (USIZE_BYTES - ls.length) := by
          rw [List.drop_drop, harith]
        have hdrop2 : (d.drop k).drop ((USIZE_BYTES - (ls.length + k)) + (N - acc.length)) =
            d.drop ((USIZE_BYTES - ls.length) + (N - acc.length)) := by
          rw [List.drop_drop]
          congr 1
          omega
        rw [hdrop1, hdrop2] at heq
        exact heq
    · have hz : USIZE_BYTES - ls.length = 0 := by omega
      have hL' : leToNat ls = L := by
        rw [hz] at hL
        simpa using hL
      obtain ⟨evs', heq⟩ := framed_drive_full tgt (e :: es) ls acc d L N fuel hg hfull hL' hN hacc
        (by omega) (by simpa [hz] using hc) hf
      refine ⟨evs', ?_⟩
      rw [heq, hz]
      simp

/-! ## Serializer behavior against the always-ready writer -/

theorem serPoll_ready_writer (rem wr : List Nat) :
    serPoll rem [] wr = (.ok (), [], [], wr ++ rem) := by
  cases rem with
  | nil => simp [serPoll]
  | cons b bs =>
    rw [serPoll.eq_def]

theorem serBytesPoll_ready_writer (ls payload wr : List Nat) :
    serBytesPoll ⟨.pending ls, payload⟩ [] wr =
      (.ok (), ⟨.completed (), []⟩, [], wr ++ ls ++ payload) := by
  simp only [serBytesPoll]
  rw [serPoll_ready_writer]
  dsimp only
  rw [serPoll_ready_writer]

/-! ## Two's-complement round trip -/

theorem int_pow256 (w : Nat) : ((256 : Int) ^ w) = 2 ^ (8 * w) := by
  rw [show (256 : Int) = 2 ^ 8 from rfl, ← pow_mul]

theorem toSigned_round (w : Nat) (hw : 1 ≤ w) (v : Int)
    (h1 : -(2 ^ (8 * w - 1)) ≤ v) (h2 : v < 2 ^ (8 * w - 1)) :
    toSignedVal w (leToNat (sToBytes w v)) = v := by
  have hsplit : 8 * w = (8 * w - 1) + 1 := by omega
  have hMpos : (0 : Int) < 2 ^ (8 * w) := by positivity
  have hM2 : ((2 : Int) ^ (8 * w)) = 2 * 2 ^ (8 * w - 1) := by
    calc ((2 : Int) ^ (8 * w)) = 2 ^ ((8 * w - 1) + 1) := by rw [← hsplit]
      _ = 2 ^ (8 * w - 1) * 2 := pow_succ 2 _
      _ = 2 * 2 ^ (8 * w - 1) := by ring
  have hApos : (0 : Int) < 2 ^ (8 * w - 1) := by positivity
  have hvM : v % ((2 : Int) ^ (8 * w)) = if 0 ≤ v then v else v + 2 ^ (8 * w) := by
    split
    · exact Int.emod_eq_of_lt (by assumption) (by omega)
    · have hshift : (v + 2 ^ (8 * w) * 1) % (2 ^ (8 * w)) = v % (2 ^ (8 * w)) :=
        Int.add_mul_emod_self_left ..
      rw [mul_one] at hshift
      rw [← hshift]
      exact Int.emod_eq_of_lt (by omega) (by omega)
  have hmod_nonneg : 0 ≤ v % ((2 : Int) ^ (8 * w)) := Int.emod_nonneg v (by omega)
  have hmod_lt : v % ((2 : Int) ^ (8 * w)) < 2 ^ (8 * w) := Int.emod_lt_of_pos v hMpos
  have hcast : ((v % ((2 : Int) ^ (8 * w))).toNat : Int) = v % ((2 : Int) ^ (8 * w)) :=
    Int.toNat_of_nonneg hmod_nonneg
  have hcastpow : (((256 : Nat) ^ w : Nat) : Int) = (2 : Int) ^ (8 * w) := by
    push_cast [pow256_eq]
    ring
  have hu256 : (v % ((2 : Int) ^ (8 * w))).toNat < 256 ^ w := by
    omega
  unfold sToBytes
  rw [leToNat_natToLe w _ hu256]
  unfold toSignedVal
  have hcastpow1 : (((2 : Nat) ^ (8 * w - 1) : Nat) : Int) = (2 : Int) ^ (8 * w - 1) := by
    push_cast
    ring
  split
  · rename_i hsmall
    have hsmall' : ((v % ((2 : Int) ^ (8 * w))).toNat : Int) < 2 ^ (8 * w - 1) := by
      omega
    rw [hcast] at hsmall' ⊢
    rw [hvM] at hsmall' ⊢
    split at hsmall'
    · rw [if_pos (by assumption)]
    · rw [if_neg (by assumption)]
      omega
  · rename_i hbig
    have hbig' : ¬ ((v % ((2 : Int) ^ (8 * w))).toNat : Int) < 2 ^ (8 * w - 1) := by
      omega
    rw [hcast, hvM] at hbig'
    rw [hcast, hvM]
    split at hbig'
    · omega
    · rw [if_neg (by assumption)]
      omega

/-! ## Slice payload layout -/

theorem sliceBytes_cons (size x : Nat) (xs : List Nat) :
    sliceBytes size (x :: xs) = natToLe size x ++ sliceBytes size xs := by
  simp [sliceBytes]

theorem sliceBytes_length (size : Nat) (elems : List Nat) :
    (sliceBytes size elems).length = elems.length * size := by
  induction elems with
  | nil => simp [sliceBytes]
  | cons x xs ih =>
    rw [sliceBytes_cons, List.length_append, natToLe_length, ih, List.length_cons,
      Nat.succ_mul]
    omega

theorem decodeElems_slice (size : Nat) :
    ∀ (elems : List Nat) (extra : List Nat), (∀ x ∈ elems, x < 256 ^ size) →
      decodeElems size elems.length (sliceBytes size elems ++ extra) = elems := by
  intro elems
  induction elems with
  | nil =>
    intro extra hval
    simp [decodeElems]
  | cons x xs ih =>
    intro extra hval
    rw [sliceBytes_cons]
    have hlen : (natToLe size x).length = size := natToLe_length size x
    rw [List.length_cons, List.append_assoc]
    show leToNat ((natToLe size x ++ (sliceBytes size xs ++ extra)).take size) ::
        decodeElems size xs.length ((natToLe size x ++ (sliceBytes size xs ++ extra)).drop size) =
      x :: xs
    rw [List.take_left' hlen, List.drop_left' hlen]
    rw [leToNat_natToLe size x (hval x (by simp))]
    rw [ih extra (fun y hy => hval y (by simp [hy]))]

/-! ## Post-composition equations for the wrapped decoders -/

theorem deserPoll_eq_post (w : Nat) (buf : List Nat) (evs : List RdEvent) (d : List Nat) :
    deserPoll w buf evs d =
      (mapOut leToNat (fillPoll w buf evs d).1, (fillPoll w buf evs d).2) := rfl

theorem deserPollS_eq_post (w : Nat) (buf : List Nat) (evs : List RdEvent) (d : List Nat) :
    deserPollS w buf evs d =
      (mapOut (fun bs => toSignedVal w (leToNat bs)) (fillPoll w buf evs d).1,
       (fillPoll w buf evs d).2) := rfl

theorem strPoll_eq_post (st : FramedSt) (evs : List RdEvent) (d : List Nat) :
    strPoll st evs d =
      ((fun o => match o with
          | PollOut.ok bs => if validUtf8 bs then PollOut.ok bs else PollOut.err .invalidData
          | o => o) (bytesPoll st evs d).1,
       (bytesPoll st evs d).2) := by
  rcases hr : bytesPoll st evs d with ⟨out, st', evs', d'⟩
  cases out with
  | pending => simp [strPoll, hr]
  | ok bs => simp [strPoll, hr]
  | err e => simp [strPoll, hr]

theorem deSlicePoll_eq_post (size : Nat) (st : FramedSt) (evs : List RdEvent) (d : List Nat) :
    deSlicePoll size st evs d =
      (mapOut (decodeElems size (stLen (framedPoll (fun L => L * size) st evs d).2.1))
         (framedPoll (fun L => L * size) st evs d).1,
       (framedPoll (fun L => L * size) st evs d).2) := by
  rcases st with ⟨lenSt, acc⟩
  cases lenSt with
  | completed L =>
    rcases hr : fillPoll (L * size) acc evs d with ⟨out, acc', evs', d'⟩
    simp only [deSlicePoll, framedPoll]
    rw [hr]
    cases out <;> rfl
  | pending ls =>
    rcases hr : fillPoll USIZE_BYTES ls evs d with ⟨out, ls', evs', d'⟩
    cases out with
    | pending =>
      simp only [deSlicePoll, framedPoll]
      rw [hr]
      rfl
    | err e =>
      simp only [deSlicePoll, framedPoll]
      rw [hr]
      rfl
    | ok lb =>
      rcases hr2 : fillPoll (leToNat lb * size) acc evs' d' with ⟨out2, acc2, evs2, d2⟩
      simp only [deSlicePoll, framedPoll]
      rw [hr]
      dsimp only
      rw [hr2]
      cases out2 <;> rfl

/-! ## One-shot round trips for the primitive machines -/

theorem fill_one_shot (w : Nat) (p : List Nat) (hw : 1 ≤ w) (hlen : p.length = w) :
    fillPoll w [] [.give w] p = (.ok p, p, [], []) := by
  rw [fillPoll_one_give w [] p w [] (by simpa using hw) (by omega) (by omega)]
  simp [List.take_of_length_le, List.drop_eq_nil_of_le, hlen]

theorem deser_one_shot (w v : Nat) (hw : 1 ≤ w) (hv : v < 256 ^ w) :
    deserPoll w [] [.give w] (natToLe w v) = (.ok v, natToLe w v, [], []) := by
  rw [deserPoll_eq_post, fill_one_shot w (natToLe w v) hw (natToLe_length w v)]
  simp [mapOut, leToNat_natToLe w v hv]

theorem deserS_one_shot (w : Nat) (v : Int) (hw : 1 ≤ w)
    (h1 : -(2 ^ (8 * w - 1)) ≤ v) (h2 : v < 2 ^ (8 * w - 1)) :
    deserPollS w [] [.give w] (sToBytes w v) = (.ok v, sToBytes w v, [], []) := by
  rw [deserPollS_eq_post, fill_one_shot w (sToBytes w v) hw (natToLe_length w _)]
  simp [mapOut, toSigned_round w hw v h1 h2]

/-! # Claim theorems -/

/-- C1: for every fixed-width scalar shape — unsigned integers of any
byte width (covering u16/u32/u64/u128/usize and, through the bit-pattern
model, f32/f64), signed integers of any byte width, and the one-byte
fast-path types — encoding a value with the serializer machine against an
always-ready writer puts exactly its to_ne_bytes image on the wire, and
the deserializer machine decodes that byte sequence back to the very same
value. Floats travel as their raw IEEE-754 bit pattern through the
equal-width unsigned machine, so every bit pattern (NaN payloads and
signed zero included) round-trips bit-for-bit. -/
theorem c1_scalar_roundtrip :
    (∀ (w v : Nat), 1 ≤ w → v < 256 ^ w →
      serPoll (natToLe w v) [] [] = (.ok (), [], [], natToLe w v) ∧
      deserPoll w [] [.give w] (natToLe w v) = (.ok v, natToLe w v, [], []))
  ∧ (∀ (w : Nat) (v : Int), 1 ≤ w → -(2 ^ (8 * w - 1)) ≤ v → v < 2 ^ (8 * w - 1) →
      serPoll (sToBytes w v) [] [] = (.ok (), [], [], sToBytes w v) ∧
      deserPollS w [] [.give w] (sToBytes w v) = (.ok v, sToBytes w v, [], []))
  ∧ (∀ b : Nat, b < 256 →
      ser8Poll b [] [] = (.ok (), [], [b]) ∧
      deser8Poll [.give 1] [b] = (.ok b, [], []))
  ∧ (∀ bits : Nat, bits < 256 ^ 4 →
      serPoll (natToLe 4 bits) [] [] = (.ok (), [], [], natToLe 4 bits) ∧
      deserF32Poll [] [.give 4] (natToLe 4 bits) = (.ok bits, natToLe 4 bits, [], []))
  ∧ (∀ bits : Nat, bits < 256 ^ 8 →
      serPoll (natToLe 8 bits) [] [] = (.ok (), [], [], natToLe 8 bits) ∧
      deserF64Poll [] [.give 8] (natToLe 8 bits) = (.ok bits, natToLe 8 bits, [], [])) := by
  refine ⟨?_, ?_, ?_, ?_, ?_⟩
  · intro w v hw hv
    exact ⟨by simpa using serPoll_ready_writer (natToLe w v) [], deser_one_shot w v hw hv⟩
  · intro w v hw h1 h2
    exact ⟨by simpa using serPoll_ready_writer (sToBytes w v) [],
      deserS_one_shot w v hw h1 h2⟩
  · intro b hb
    exact ⟨by simp [ser8Poll], by simp [deser8Poll]⟩
  · intro bits hb
    exact ⟨by simpa using serPoll_ready_writer (natToLe 4 bits) [],
      deser_one_shot 4 bits (by norm_num) hb⟩
  · intro bits hb
    exact ⟨by simpa using serPoll_ready_writer (natToLe 8 bits) [],
      deser_one_shot 8 bits (by norm_num) hb⟩

theorem c1_scalar_roundtrip_witness :
    serPoll (natToLe 4 287454020) [] [] = (.ok (), [], [], natToLe 4 287454020) ∧
    deserPoll 4 [] [.give 4] (natToLe 4 287454020) =
      (.ok 287454020, natToLe 4 287454020, [], []) :=
  c1_scalar_roundtrip.1 4 287454020 (by decide) (by norm_num)

/-- C2: decoding a w-byte scalar is resumable: under any benign transport
schedule (suspensions interleaved with partial deliveries of at least one
byte each) that promises at least w deliveries, repeatedly polling the
deserializer machine completes with the value of the first w stream
bytes, leaving exactly the rest of the stream — no byte consumed twice —
and this equals the result of one poll in which all bytes arrive at
once. -/
theorem c2_resumability (w : Nat) (evs : List RdEvent) (d : List Nat) (fuel : Nat)
    (hw : 1 ≤ w) (hg : goodEvs evs = true) (hc : w ≤ countGives evs)
    (hd : w ≤ d.length) (hf : evs.length < fuel) :
    (∃ evs', drivePoll (deserPoll w) fuel [] evs d =
      (.ok (leToNat (d.take w)), d.take w, evs', d.drop w))
    ∧ drivePoll (deserPoll w) 1 [] [.give w] d =
      (.ok (leToNat (d.take w)), d.take w, [], d.drop w) := by
  constructor
  · have hpost := drivePoll_post (fillPoll w) (fun _ o => mapOut leToNat o) (deserPoll w)
      (fun st evs d => deserPoll_eq_post w st evs d)
      (by intro s o; cases o <;> simp [mapOut])
    obtain ⟨evs', heq⟩ := fill_drive w evs [] d fuel hg (by simp) (by simpa) (by simpa) hf
    simp only [List.length_nil, Nat.sub_zero, List.nil_append] at heq
    refine ⟨evs', ?_⟩
    rw [hpost fuel [] evs d, heq]
    rfl
  · have h1 : deserPoll w [] [.give w] d =
        (.ok (leToNat (d.take w)), d.take w, [], d.drop w) := by
      rw [deserPoll_eq_post]
      rw [fillPoll_one_give w [] d w [] (by simpa using hw) (by omega) (by omega)]
      simp [mapOut]
    exact drivePoll_ready (deserPoll w) h1 (by simp) 0

theorem c2_resumability_witness :
    (∃ evs', drivePoll (deserPoll 2) 4 []
        [RdEvent.pending, RdEvent.give 1, RdEvent.give 1] [7, 8, 9] =
      (.ok (leToNat (([7, 8, 9] : List Nat).take 2)), ([7, 8, 9] : List Nat).take 2, evs',
       ([7, 8, 9] : List Nat).drop 2))
    ∧ drivePoll (deserPoll 2) 1 [] [RdEvent.give 2] [7, 8, 9] =
      (.ok (leToNat (([7, 8, 9] : List Nat).take 2)), ([7, 8, 9] : List Nat).take 2, [],
       ([7, 8, 9] : List Nat).drop 2) :=
  c2_resumability 2 [RdEvent.pending, RdEvent.give 1, RdEvent.give 1] [7, 8, 9] 4
    (by decide) (by decide) (by decide) (by decide) (by decide)

/-- C6: on each poll of a staged primitive decode, a transport error
returned by the underlying read propagates unchanged (even on an empty
stream, showing the error check precedes the empty-read check), every way
of obtaining zero new bytes — a zero-byte delivery, an exhausted stream,
or a closed transport — is reported as UnexpectedEof, and a transport
error is a distinct error value from UnexpectedEof. -/
theorem c6_error_ordering :
    (∀ (w : Nat) (buf : List Nat) (c : Nat) (es : List RdEvent) (d : List Nat),
      buf.length < w →
      deserPoll w buf (.error c :: es) d = (.err (.transport c), buf, es, d))
  ∧ (∀ (w : Nat) (buf : List Nat) (es : List RdEvent) (d : List Nat),
      buf.length < w →
      deserPoll w buf (.give 0 :: es) d = (.err .unexpectedEof, buf, es, d))
  ∧ (∀ (w : Nat) (buf : List Nat) (n : Nat) (es : List RdEvent),
      buf.length < w →
      deserPoll w buf (.give n :: es) [] = (.err .unexpectedEof, buf, es, []))
  ∧ (∀ (w : Nat) (buf : List Nat) (d : List Nat),
      buf.length < w →
      deserPoll w buf [] d = (.err .unexpectedEof, buf, [], d))
  ∧ (∀ c : Nat, IOError.transport c ≠ IOError.unexpectedEof) := by
  refine ⟨?_, ?_, ?_, ?_, ?_⟩
  · intro w buf c es d h
    rw [deserPoll_eq_post, fillPoll_error c es d h]
    rfl
  · intro w buf es d h
    rw [deserPoll_eq_post, fillPoll_give_zero es h (by simp)]
    rfl
  · intro w buf n es h
    rw [deserPoll_eq_post, fillPoll_give_zero es h (by simp)]
    rfl
  · intro w buf d h
    rw [deserPoll_eq_post, fillPoll_nil d h]
    rfl
  · intro c hcon
    exact IOError.noConfusion hcon

theorem c6_error_ordering_witness :
    deserPoll 2 [] [RdEvent.error 3] [] = (.err (.transport 3), [], [], []) :=
  c6_error_ordering.1 2 [] 3 [] [] (by decide)

/-- C7: the memoizing stage is a write-once cache. A completed stage
resolves to its cached value with the transport untouched — the inner
sub-operation is never polled again — and does not change state, so once
completed it stays completed with the same cached value for every
subsequent poll of the owning operation. From the pending state the stage
completes exactly when the inner operation returns a value (caching that
value), and stays pending (with the inner state merely updated) on a
suspension or an error, so the pending-to-completed transition fires at
most once and is irreversible. -/
theorem c7_memoizing_stage :
    (∀ (σ τ : Type) (f : σ → List RdEvent → List Nat →
        PollOut τ × σ × List RdEvent × List Nat) (t : τ) (evs : List RdEvent) (d : List Nat),
      resolveStage f (.completed t) evs d = (.ok t, .completed t, evs, d))
  ∧ (∀ (σ τ : Type) (f : σ → List RdEvent → List Nat →
        PollOut τ × σ × List RdEvent × List Nat) (s : σ) (evs : List RdEvent)
        (d : List Nat) (t : τ) (st' : Stage σ τ) (evs' : List RdEvent) (d' : List Nat),
      resolveStage f (.pending s) evs d = (.ok t, st', evs', d') → st' = .completed t)
  ∧ (∀ (σ τ : Type) (f : σ → List RdEvent → List Nat →
        PollOut τ × σ × List RdEvent × List Nat) (s : σ) (evs : List RdEvent)
        (d : List Nat) (st' : Stage σ τ) (evs' : List RdEvent) (d' : List Nat),
      resolveStage f (.pending s) evs d = (.pending, st', evs', d') →
        ∃ s', st' = .pending s')
  ∧ (∀ (σ τ : Type) (f : σ → List RdEvent → List Nat →
        PollOut τ × σ × List RdEvent × List Nat) (s : σ) (evs : List RdEvent)
        (d : List Nat) (e : IOError) (st' : Stage σ τ) (evs' : List RdEvent) (d' : List Nat),
      resolveStage f (.pending s) evs d = (.err e, st', evs', d') →
        ∃ s', st' = .pending s') := by
  refine ⟨?_, ?_, ?_, ?_⟩
  · intro σ τ f t evs d
    rfl
  · intro σ τ f s evs d t st' evs' d' h
    rcases hr : f s evs d with ⟨out, s2, evs2, d2⟩
    simp only [resolveStage] at h
    rw [hr] at h
    cases out with
    | ok a =>
      simp only [Prod.mk.injEq, PollOut.ok.injEq] at h
      obtain ⟨rfl, h2, -, -⟩ := h
      exact h2.symm
    | pending => simp at h
    | err e => simp at h
  · intro σ τ f s evs d st' evs' d' h
    rcases hr : f s evs d with ⟨out, s2, evs2, d2⟩
    simp only [resolveStage] at h
    rw [hr] at h
    cases out with
    | ok a => simp at h
    | pending =>
      simp only [Prod.mk.injEq] at h
      exact ⟨s2, h.2.1.symm⟩
    | err e => simp at h
  · intro σ τ f s evs d e st' evs' d' h
    rcases hr : f s evs d with ⟨out, s2, evs2, d2⟩
    simp only [resolveStage] at h
    rw [hr] at h
    cases out with
    | ok a => simp at h
    | pending => simp at h
    | err e2 =>
      simp only [Prod.mk.injEq] at h
      exact ⟨s2, h.2.1.symm⟩

theorem c7_memoizing_stage_witness :
    (resolveStage (fun (s : Nat) evs d => (.ok s, s, evs, d)) (.pending 5) [] [] =
      ((.ok 5 : PollOut Nat), Stage.completed 5, [], []))
    ∧ (Stage.completed 5 : Stage Nat Nat) = Stage.completed 5 :=
  ⟨rfl, c7_memoizing_stage.2.1 Nat Nat (fun s evs d => (.ok s, s, evs, d)) 5 [] [] 5
    (Stage.completed 5) [] [] rfl⟩

/-- C9: the child-attaching factory produces nothing exactly when one of
the expected pipe handles (the child's stdout, taken first, or its stdin)
is unavailable, and otherwise produces a stream — no other failure mode
exists. The self-attaching factory parent_stream is infallible in the
source (the process's own standard stream handles always exist), so its
"handles unavailable" case is empty. -/
theorem c9_factory_graceful (c : Child) :
    connect_to_child c = none ↔ c.stdout = none ∨ c.stdin = none := by
  rcases c with ⟨so, si⟩
  cases so <;> cases si <;> simp [connect_to_child]

/-- Shared decoding fact for the length-framed byte-buffer decoder: under
a benign schedule with enough deliveries, driving it on a stream that
frames payload (prefix = payload length) completes with exactly payload,
leaving exactly the bytes after it. -/
theorem bytes_drive_frame (payload extra : List Nat) (evs : List RdEvent) (fuel : Nat)
    (hg : goodEvs evs = true)
    (hlen : payload.length < 256 ^ USIZE_BYTES)
    (hc : USIZE_BYTES + payload.length ≤ countGives evs)
    (hf : evs.length < fuel) :
    ∃ evs', drivePoll bytesPoll fuel framedInit evs
        (natToLe USIZE_BYTES payload.length ++ payload ++ extra) =
      (.ok payload, ⟨.completed payload.length, payload⟩, evs', extra) := by
  have hplen : (natToLe USIZE_BYTES payload.length).length = USIZE_BYTES :=
    natToLe_length _ _
  have hL : leToNat (([] : List Nat) ++
      (natToLe USIZE_BYTES payload.length ++ (payload ++ extra)).take
        (USIZE_BYTES - ([] : List Nat).length)) = payload.length := by
    simp only [List.length_nil, Nat.sub_zero, List.nil_append]
    rw [List.take_left' hplen]
    exact leToNat_natToLe _ _ hlen
  obtain ⟨evs', heq⟩ := framed_drive (fun L => L) evs [] []
    (natToLe USIZE_BYTES payload.length ++ (payload ++ extra))
    payload.length payload.length fuel hg (by simp) hL rfl (by simp)
    (by simp [hplen]) (by simpa using hc) hf
  simp only [List.length_nil, Nat.sub_zero, List.nil_append] at heq
  have h1 : (natToLe USIZE_BYTES payload.length ++ (payload ++ extra)).drop USIZE_BYTES =
      payload ++ extra := List.drop_left' hplen
  have h2 : (payload ++ extra).take payload.length = payload := List.take_left payload extra
  have h3 : (natToLe USIZE_BYTES payload.length ++ (payload ++ extra)).drop
      (USIZE_BYTES + payload.length) = extra := by
    rw [← List.append_assoc]
    exact List.drop_left' (by simp [hplen])
  rw [h1, h2, h3] at heq
  exact ⟨evs', heq⟩

/-- C3: encoding a byte buffer of length L against the always-ready
writer puts exactly the word-size native-order prefix holding L followed
by the L payload bytes in order on the wire — word-size + L bytes in
total — and a decode whose prefix decodes to L consumes exactly L payload
bytes before completing, under every benign schedule of partial
transport reads with enough deliveries. -/
theorem c3_length_framing :
    (∀ payload : List Nat,
      serBytesPoll (serBytesNew payload) [] [] =
        (.ok (), ⟨.completed (), []⟩, [], natToLe USIZE_BYTES payload.length ++ payload)
      ∧ (natToLe USIZE_BYTES payload.length ++ payload).length =
          USIZE_BYTES + payload.length)
  ∧ (∀ (payload extra : List Nat) (evs : List RdEvent) (fuel : Nat),
      goodEvs evs = true →
      payload.length < 256 ^ USIZE_BYTES →
      USIZE_BYTES + payload.length ≤ countGives evs →
      evs.length < fuel →
      ∃ evs', drivePoll bytesPoll fuel framedInit evs
          (natToLe USIZE_BYTES payload.length ++ payload ++ extra) =
        (.ok payload, ⟨.completed payload.length, payload⟩, evs', extra)) := by
  constructor
  · intro payload
    constructor
    · simpa using serBytesPoll_ready_writer (natToLe USIZE_BYTES payload.length) payload []
    · simp [natToLe_length]
  · intro payload extra evs fuel hg hlen hc hf
    exact bytes_drive_frame payload extra evs fuel hg hlen hc hf

theorem c3_length_framing_witness :
    (∃ evs', drivePoll bytesPoll 12 framedInit
        [RdEvent.give 8, RdEvent.pending, RdEvent.give 1, RdEvent.give 1,
         RdEvent.give 1, RdEvent.give 1, RdEvent.give 1, RdEvent.give 1,
         RdEvent.give 1, RdEvent.give 1, RdEvent.give 1]
        (natToLe USIZE_BYTES (([37, 99] : List Nat)).length ++ [37, 99] ++ [5]) =
      (.ok [37, 99], ⟨.completed ([37, 99] : List Nat).length, [37, 99]⟩, evs', [5])) :=
  c3_length_framing.2 [37, 99] [5]
    [RdEvent.give 8, RdEvent.pending, RdEvent.give 1, RdEvent.give 1,
     RdEvent.give 1, RdEvent.give 1, RdEvent.give 1, RdEvent.give 1,
     RdEvent.give 1, RdEvent.give 1, RdEvent.give 1] 12
    (by decide) (by norm_num [USIZE_BYTES]) (by decide) (by decide)

/-- C5: a string decode whose framed payload is not valid UTF-8 fails
with InvalidData, and the failure happens only after the full framed
payload has been consumed: whatever benign schedule of partial reads is
used, the stream is left exactly past the prefix plus the declared byte
count, and the staged state holds the fully buffered payload on which
validation ran. -/
theorem c5_utf8_validation (payload extra : List Nat) (evs : List RdEvent) (fuel : Nat)
    (hg : goodEvs evs = true)
    (hlen : payload.length < 256 ^ USIZE_BYTES)
    (hbad : validUtf8 payload = false)
    (hc : USIZE_BYTES + payload.length ≤ countGives evs)
    (hf : evs.length < fuel) :
    ∃ evs', drivePoll strPoll fuel framedInit evs
        (natToLe USIZE_BYTES payload.length ++ payload ++ extra) =
      (.err .invalidData, ⟨.completed payload.length, payload⟩, evs', extra) := by
  have hpost := drivePoll_post bytesPoll
    (fun _ o => match o with
      | PollOut.ok bs => if validUtf8 bs then PollOut.ok bs else PollOut.err .invalidData
      | o => o)
    strPoll strPoll_eq_post
    (by
      intro s o
      cases o with
      | pending => simp
      | ok bs =>
        constructor
        · intro hcon
          by_cases hv : validUtf8 bs <;> simp [hv] at hcon
        · intro hcon
          exact PollOut.noConfusion hcon
      | err e => simp)
  obtain ⟨evs', heq⟩ := bytes_drive_frame payload extra evs fuel hg hlen hc hf
  refine ⟨evs', ?_⟩
  rw [hpost fuel framedInit evs (natToLe USIZE_BYTES payload.length ++ payload ++ extra), heq]
  simp [hbad]

theorem c5_utf8_validation_witness :
    ∃ evs', drivePoll strPoll 10 framedInit
        [RdEvent.give 8, RdEvent.give 1, RdEvent.give 1,
         RdEvent.give 1, RdEvent.give 1, RdEvent.give 1, RdEvent.give 1,
         RdEvent.give 1, RdEvent.give 1]
        (natToLe USIZE_BYTES (([255] : List Nat)).length ++ [255] ++ [65]) =
      (.err .invalidData, ⟨.completed ([255] : List Nat).length, [255]⟩, evs', [65]) :=
  c5_utf8_validation [255] [65]
    [RdEvent.give 8, RdEvent.give 1, RdEvent.give 1,
     RdEvent.give 1, RdEvent.give 1, RdEvent.give 1, RdEvent.give 1,
     RdEvent.give 1, RdEvent.give 1] 10
    (by decide) (by norm_num [USIZE_BYTES]) (by decide) (by decide) (by decide)

/-- C10: a byte-buffer or string decode framed with length 0 completes
successfully with an empty result on the very poll that finishes the
prefix, consuming exactly the word-size prefix bytes: the remaining
transport events and the remaining stream bytes are left untouched, so no
payload read is ever issued and no failure can occur after the prefix. -/
theorem c10_empty_payload :
    (∀ (extra : List Nat) (more : List RdEvent),
      drivePoll bytesPoll 1 framedInit (.give USIZE_BYTES :: more)
        (natToLe USIZE_BYTES 0 ++ extra) = (.ok [], ⟨.completed 0, []⟩, more, extra))
  ∧ (∀ (extra : List Nat) (more : List RdEvent),
      drivePoll strPoll 1 framedInit (.give USIZE_BYTES :: more)
        (natToLe USIZE_BYTES 0 ++ extra) = (.ok [], ⟨.completed 0, []⟩, more, extra)) := by
  have hplen : (natToLe USIZE_BYTES 0).length = USIZE_BYTES := natToLe_length _ _
  have hfill : ∀ (extra : List Nat) (more : List RdEvent),
      fillPoll USIZE_BYTES [] (.give USIZE_BYTES :: more) (natToLe USIZE_BYTES 0 ++ extra) =
        (.ok (natToLe USIZE_BYTES 0), natToLe USIZE_BYTES 0, more, extra) := by
    intro extra more
    rw [fillPoll_one_give USIZE_BYTES [] (natToLe USIZE_BYTES 0 ++ extra) USIZE_BYTES more
      (by simp [USIZE_BYTES]) (by omega) (by simp [hplen])]
    simp only [List.length_nil, Nat.sub_zero, List.nil_append]
    rw [List.take_left' hplen, List.drop_left' hplen]
  have hL0 : leToNat (natToLe USIZE_BYTES 0) = 0 := leToNat_natToLe _ 0 (by positivity)
  have hbytes : ∀ (extra : List Nat) (more : List RdEvent),
      bytesPoll framedInit (.give USIZE_BYTES :: more) (natToLe USIZE_BYTES 0 ++ extra) =
        (.ok [], ⟨.completed 0, []⟩, more, extra) := by
    intro extra more
    show framedPoll (fun L => L) ⟨.pending [], []⟩ _ _ = _
    simp only [framedPoll]
    rw [hfill extra more]
    dsimp only
    rw [hL0]
    rw [fillPoll_done more extra (by simp)]
  constructor
  · intro extra more
    exact drivePoll_ready bytesPoll (hbytes extra more) (by simp) 0
  · intro extra more
    have hstr : strPoll framedInit (.give USIZE_BYTES :: more) (natToLe USIZE_BYTES 0 ++ extra) =
        (.ok [], ⟨.completed 0, []⟩, more, extra) := by
      rw [strPoll_eq_post, hbytes extra more]
      rfl
    exact drivePoll_ready strPoll hstr (by simp) 0

/-- C8: a homogeneous primitive slice of L elements of byte width size is
framed with the element count L (not the byte count) as its word-size
prefix, followed by exactly L * size payload bytes — the raw
reinterpretation of the elements; decoding reads the element-count prefix
and then consumes exactly L * size payload bytes, under every benign
schedule with enough deliveries, producing the original L elements. -/
theorem c8_primitive_slice :
    (∀ (size : Nat) (elems : List Nat),
      serBytesPoll (serPrimSliceNew size elems) [] [] =
        (.ok (), ⟨.completed (), []⟩, [],
         natToLe USIZE_BYTES elems.length ++ sliceBytes size elems)
      ∧ (sliceBytes size elems).length = elems.length * size)
  ∧ (∀ (size : Nat) (elems extra : List Nat) (evs : List RdEvent) (fuel : Nat),
      goodEvs evs = true →
      elems.length < 256 ^ USIZE_BYTES →
      (∀ x ∈ elems, x < 256 ^ size) →
      USIZE_BYTES + elems.length * size ≤ countGives evs →
      evs.length < fuel →
      ∃ evs', drivePoll (deSlicePoll size) fuel framedInit evs
          (natToLe USIZE_BYTES elems.length ++ sliceBytes size elems ++ extra) =
        (.ok elems, ⟨.completed elems.length, sliceBytes size elems⟩, evs', extra)) := by
  constructor
  · intro size elems
    constructor
    · simp only [serPrimSliceNew]
      simpa using serBytesPoll_ready_writer (natToLe USIZE_BYTES elems.length)
        (sliceBytes size elems) []
    · exact sliceBytes_length size elems
  · intro size elems extra evs fuel hg hlen hval hc hf
    have hplen : (natToLe USIZE_BYTES elems.length).length = USIZE_BYTES :=
      natToLe_length _ _
    have hslen : (sliceBytes size elems).length = elems.length * size :=
      sliceBytes_length _ _
    have hpost := drivePoll_post (framedPoll (fun L => L * size))
      (fun s o => mapOut (decodeElems size (stLen s)) o)
      (deSlicePoll size)
      (fun st evs d => deSlicePoll_eq_post size st evs d)
      (by intro s o; cases o <;> simp [mapOut])
    have hL : leToNat (([] : List Nat) ++
        (natToLe USIZE_BYTES elems.length ++ (sliceBytes size elems ++ extra)).take
          (USIZE_BYTES - ([] : List Nat).length)) = elems.length := by
      simp only [List.length_nil, Nat.sub_zero, List.nil_append]
      rw [List.take_left' hplen]
      exact leToNat_natToLe _ _ hlen
    obtain ⟨evs', heq⟩ := framed_drive (fun L => L * size) evs [] []
      (natToLe USIZE_BYTES elems.length ++ (sliceBytes size elems ++ extra))
      elems.length (elems.length * size) fuel hg (by simp) hL rfl (by simp)
      (by simp [hplen, hslen]) (by simpa using hc) hf
    simp only [List.length_nil, Nat.sub_zero, List.nil_append] at heq
    have h1 : (natToLe USIZE_BYTES elems.length ++ (sliceBytes size elems ++ extra)).drop
        USIZE_BYTES = sliceBytes size elems ++ extra := List.drop_left' hplen
    have h2 : (sliceBytes size elems ++ extra).take (elems.length * size) =
        sliceBytes size elems := List.take_left' hslen
    have h3 : (natToLe USIZE_BYTES elems.length ++ (sliceBytes size elems ++ extra)).drop
        (USIZE_BYTES + elems.length * size) = extra := by
      rw [← List.append_assoc]
      exact List.drop_left' (by simp [hplen, hslen])
    rw [h1, h2, h3] at heq
    have heq2 : drivePoll (framedPoll (fun L => L * size)) fuel framedInit evs
        (natToLe USIZE_BYTES elems.length ++ sliceBytes size elems ++ extra) =
      (.ok (sliceBytes size elems), ⟨.completed elems.length, sliceBytes size elems⟩,
       evs', extra) := heq
    refine ⟨evs', ?_⟩
    rw [hpost fuel framedInit evs
      (natToLe USIZE_BYTES elems.length ++ sliceBytes size elems ++ extra), heq2]
    have hdec : decodeElems size elems.length (sliceBytes size elems) = elems := by
      have hds := decodeElems_slice size elems [] hval
      simpa using hds
    simp [mapOut, stLen, hdec]

theorem c8_primitive_slice_witness :
    (∃ evs', drivePoll (deSlicePoll 2) 13 framedInit
        [RdEvent.give 8, RdEvent.give 1, RdEvent.give 1, RdEvent.give 1,
         RdEvent.give 1, RdEvent.give 1, RdEvent.give 1, RdEvent.give 1,
         RdEvent.give 1, RdEvent.give 1, RdEvent.give 1, RdEvent.give 1]
        (natToLe USIZE_BYTES (([258, 3] : List Nat)).length ++ sliceBytes 2 [258, 3] ++ [9]) =
      (.ok [258, 3], ⟨.completed ([258, 3] : List Nat).length, sliceBytes 2 [258, 3]⟩,
       evs', [9])) :=
  c8_primitive_slice.2 2 [258, 3] [9]
    [RdEvent.give 8, RdEvent.give 1, RdEvent.give 1, RdEvent.give 1,
     RdEvent.give 1, RdEvent.give 1, RdEvent.give 1, RdEvent.give 1,
     RdEvent.give 1, RdEvent.give 1, RdEvent.give 1, RdEvent.give 1] 13
    (by decide) (by norm_num [USIZE_BYTES]) (by decide) (by decide) (by decide)

/-- C4: decoding an optional value or a two-variant outcome reads one
discriminator byte; any value other than 0 or 1 fails at once with
InvalidData, leaving the remaining transport events and stream bytes
untouched — no payload read is attempted, for every inner codec;
discriminator 1 transitions to the payload state and delegates to the
inner (respectively success) codec, discriminator 0 completes with the
absent value (respectively delegates to the failure codec). -/
theorem c4_discriminator :
    (∀ (α : Type) (c : DeCodec α) (b : Nat) (rest : List Nat) (n : Nat)
        (more : List RdEvent),
      1 ≤ n → 2 ≤ b →
      optPoll c .disc (.give n :: more) (b :: rest) = (.err .invalidData, .disc, more, rest))
  ∧ (∀ (α : Type) (c : DeCodec α) (rest : List Nat) (n : Nat) (more : List RdEvent),
      1 ≤ n →
      optPoll c .disc (.give n :: more) (0 :: rest) = (.ok none, .disc, more, rest))
  ∧ (∀ (α : Type) (c : DeCodec α) (rest : List Nat) (n : Nat) (more : List RdEvent),
      1 ≤ n →
      optPoll c .disc (.give n :: more) (1 :: rest) =
        (mapOut some (c.poll c.init more rest).1,
         .payload (c.poll c.init more rest).2.1, (c.poll c.init more rest).2.2))
  ∧ (∀ (α β : Type) (cT : DeCodec α) (cE : DeCodec β) (b : Nat) (rest : List Nat)
        (n : Nat) (more : List RdEvent),
      1 ≤ n → 2 ≤ b →
      resPoll cT cE .disc (.give n :: more) (b :: rest) =
        (.err .invalidData, .disc, more, rest))
  ∧ (∀ (α β : Type) (cT : DeCodec α) (cE : DeCodec β) (rest : List Nat) (n : Nat)
        (more : List RdEvent),
      1 ≤ n →
      resPoll cT cE .disc (.give n :: more) (1 :: rest) =
        (mapOut Sum.inl (cT.poll cT.init more rest).1,
         .pendT (cT.poll cT.init more rest).2.1, (cT.poll cT.init more rest).2.2))
  ∧ (∀ (α β : Type) (cT : DeCodec α) (cE : DeCodec β) (rest : List Nat) (n : Nat)
        (more : List RdEvent),
      1 ≤ n →
      resPoll cT cE .disc (.give n :: more) (0 :: rest) =
        (mapOut Sum.inr (cE.poll cE.init more rest).1,
         .pendE (cE.poll cE.init more rest).2.1, (cE.poll cE.init more rest).2.2)) := by
  have h8 : ∀ (b n : Nat) (rest : List Nat) (more : List RdEvent), 1 ≤ n →
      deser8Poll (.give n :: more) (b :: rest) = (.ok b, more, rest) := by
    intro b n rest more hn
    simp [deser8Poll, show n ≠ 0 by omega]
  refine ⟨?_, ?_, ?_, ?_, ?_, ?_⟩
  · intro α c b rest n more hn hb
    simp only [optPoll]
    rw [h8 b n rest more hn]
    dsimp only
    rw [if_neg (by omega : ¬ b = 1), if_neg (by omega : ¬ b = 0)]
  · intro α c rest n more hn
    simp only [optPoll]
    rw [h8 0 n rest more hn]
    rfl
  · intro α c rest n more hn
    simp only [optPoll]
    rw [h8 1 n rest more hn]
    rfl
  · intro α β cT cE b rest n more hn hb
    simp only [resPoll]
    rw [h8 b n rest more hn]
    dsimp only
    rw [if_neg (by omega : ¬ b = 1), if_neg (by omega : ¬ b = 0)]
  · intro α β cT cE rest n more hn
    simp only [resPoll]
    rw [h8 1 n rest more hn]
    rfl
  · intro α β cT cE rest n more hn
    simp only [resPoll]
    rw [h8 0 n rest more hn]
    rfl

theorem c4_discriminator_witness :
    optPoll u8Codec .disc [RdEvent.give 1] [7] = (.err .invalidData, .disc, [], []) :=
  c4_discriminator.1 Nat u8Codec 7 [] 1 [] (by decide) (by decide)
